import Mathlib

/-!
Verification of the RustScan core against its specification.

The development shallowly embeds the Rust sources:
* `src/port_strategy/range_iterator.rs` — the serial and randomized port
  iterators over lists of inclusive `u16` ranges;
* `src/scanner/mod.rs` — `Scanner::run`'s exclude-port filtering and batched
  dispatch loop, `Scanner::scan_socket` (TCP retry/fatal logic) and
  `Scanner::scan_udp_socket`/`udp_scan` (UDP retry logic);
* `src/address.rs` — `get_resolver`, `parse_addresses`,
  `read_ips_from_file`.

Machine integers are embedded as `ℕ` with explicit bounds where they matter
(`u16` ports carry a `≤ 65535` side condition; the `u32` saturating addition
of the prefix array is modelled by `satAdd`).  Randomness (`rand::rng()`) is
embedded by passing the drawn values as explicit parameters or streams.
I/O outcomes (TCP connects, UDP datagrams, DNS lookups, file reads) are
embedded as explicit oracle functions.
-/

namespace RustScan

/-- A port `p` lies in the union of the inclusive input ranges.
(`input` is the `&[(u16, u16)]` argument of `RangeIterator::new_*`.) -/
def inRanges (input : List (ℕ × ℕ)) (p : ℕ) : Prop :=
  ∃ r ∈ input, r.1 ≤ p ∧ p ≤ r.2

instance decInRanges (input : List (ℕ × ℕ)) (p : ℕ) : Decidable (inRanges input p) :=
  List.decidableBEx _ input

/-! ## Serial iterator (`RangeIterator::new_serial` + the serial path of `next`) -/

/-- The underlying serial stream: `input.into_iter().flat_map(|(start, end)| start..=end)`.
`start..=end` for naturals is `List.range' start (end + 1 - start)`. -/
def serialFlat (input : List (ℕ × ℕ)) : List ℕ :=
  input.flatMap (fun r => List.range' r.1 (r.2 + 1 - r.1))

/-- The serial path of `RangeIterator::next`: pull from the stream, skip a port
already in the `BitSet`, otherwise insert it and yield it. -/
def serialGo (seen : Finset ℕ) : List ℕ → List ℕ
  | [] => []
  | p :: t => if p ∈ seen then serialGo seen t else p :: serialGo (insert p seen) t

/-- All ports yielded by a serial `RangeIterator` over `input`, in order. -/
def serialPorts (input : List (ℕ × ℕ)) : List ℕ :=
  serialGo ∅ (serialFlat input)

theorem serialGo_sublist (seen : Finset ℕ) (l : List ℕ) : List.Sublist (serialGo seen l) l := by
  induction l generalizing seen with
  | nil => simp [serialGo]
  | cons p t ih =>
    simp only [serialGo]
    split
    · exact (ih seen).trans (List.sublist_cons_self p t)
    · exact (ih (insert p seen)).cons₂ p

theorem mem_serialGo {seen : Finset ℕ} {l : List ℕ} {x : ℕ} :
    x ∈ serialGo seen l ↔ x ∈ l ∧ x ∉ seen := by
  induction l generalizing seen with
  | nil => simp [serialGo]
  | cons p t ih =>
    simp only [serialGo]
    split
    · rename_i hp
      rw [ih]
      constructor
      · rintro ⟨hx, hs⟩
        exact ⟨List.mem_cons_of_mem p hx, hs⟩
      · rintro ⟨hx, hs⟩
        rcases List.mem_cons.mp hx with rfl | hx
        · exact absurd hp hs
        · exact ⟨hx, hs⟩
    · rename_i hp
      constructor
      · intro hx
        rcases List.mem_cons.mp hx with rfl | hx
        · exact ⟨List.mem_cons_self _ _, hp⟩
        · rcases ih.mp hx with ⟨h1, h2⟩
          refine ⟨List.mem_cons_of_mem p h1, fun hs => h2 ?_⟩
          exact Finset.mem_insert_of_mem hs
      · rintro ⟨hx, hs⟩
        rcases List.mem_cons.mp hx with rfl | hx
        · exact List.mem_cons_self _ _
        · by_cases hxp : x = p
          · subst hxp; exact List.mem_cons_self _ _
          · refine List.mem_cons_of_mem p (ih.mpr ⟨hx, ?_⟩)
            simp [Finset.mem_insert, hxp, hs]

theorem serialGo_nodup (seen : Finset ℕ) (l : List ℕ) : (serialGo seen l).Nodup := by
  induction l generalizing seen with
  | nil => simp [serialGo]
  | cons p t ih =>
    simp only [serialGo]
    split
    · exact ih seen
    · refine List.nodup_cons.mpr ⟨fun hmem => ?_, ih (insert p seen)⟩
      exact (mem_serialGo.mp hmem).2 (Finset.mem_insert_self p _)

theorem mem_serialFlat {input : List (ℕ × ℕ)} {x : ℕ} :
    x ∈ serialFlat input ↔ inRanges input x := by
  simp only [serialFlat, List.mem_flatMap, inRanges, List.mem_range'_1]
  constructor
  · rintro ⟨r, hr, h1, h2⟩
    exact ⟨r, hr, h1, by omega⟩
  · rintro ⟨r, hr, h1, h2⟩
    exact ⟨r, hr, h1, by omega⟩

/-- **C2.** The serial `RangeIterator` walks the ranges in original input
order, emits each port the first time it is encountered and skips later
duplicates: the emitted list is duplicate-free, its members are exactly the
union of the input ranges, and it is a subsequence of the raw input-order
stream of ports. -/
theorem serial_iterator_emits_union_once (input : List (ℕ × ℕ))
    (hne : input ≠ []) (hle : ∀ r ∈ input, r.1 ≤ r.2) :
    (serialPorts input).Nodup ∧
      (∀ p, p ∈ serialPorts input ↔ inRanges input p) ∧
      List.Sublist (serialPorts input) (serialFlat input) := by
  refine ⟨serialGo_nodup _ _, fun p => ?_, serialGo_sublist _ _⟩
  rw [serialPorts, mem_serialGo, mem_serialFlat]
  simp

/-- Witness for `serial_iterator_emits_union_once` at the spec's S6 input
`[(1,10),(5,15),(100,102)]`. -/
theorem serial_iterator_emits_union_once_witness :
    ([(1,10),(5,15),(100,102)] : List (ℕ × ℕ)) ≠ [] ∧
      (serialPorts [(1,10),(5,15),(100,102)]).Nodup ∧
      (∀ p, p ∈ serialPorts [(1,10),(5,15),(100,102)] ↔
        inRanges [(1,10),(5,15),(100,102)] p) ∧
      List.Sublist (serialPorts [(1,10),(5,15),(100,102)]) (serialFlat [(1,10),(5,15),(100,102)]) := by
  refine ⟨by decide, ?_⟩
  exact serial_iterator_emits_union_once _ (by decide) (by decide)

/-! ## `pick_random_coprime` -/

/-- The loop of `pick_random_coprime`: test up to 10 drawn candidates, return
the first one coprime to `e`, and fall back to `e - 1`.  `cands i` is the
`i`-th value drawn by `rng.random_range(lower_range..upper_range)`. -/
def pickGo (e : ℕ) (cands : ℕ → ℕ) (i : ℕ) : ℕ :=
  if i < 10 then
    if Nat.gcd e (cands i) = 1 then cands i else pickGo e cands (i + 1)
  else e - 1
termination_by 10 - i

/-- `pick_random_coprime(end)` from `range_iterator.rs`, with the random draws
passed in as the stream `cands`. -/
def pick_random_coprime (e : ℕ) (cands : ℕ → ℕ) : ℕ :=
  pickGo e cands 0

theorem gcd_pred (e : ℕ) (he : 1 ≤ e) : Nat.gcd e (e - 1) = 1 := by
  obtain ⟨m, rfl⟩ : ∃ m, e = m + 1 := ⟨e - 1, by omega⟩
  simp [Nat.gcd_self_add_left]

theorem pickGo_gcd (e : ℕ) (he : 1 ≤ e) (cands : ℕ → ℕ) :
    ∀ n i, 10 - i ≤ n → Nat.gcd e (pickGo e cands i) = 1 := by
  intro n
  induction n with
  | zero =>
    intro i hi
    rw [pickGo]
    have h10 : ¬ i < 10 := by omega
    simp [h10, gcd_pred e he]
  | succ n ih =>
    intro i hi
    rw [pickGo]
    split
    · split
      · assumption
      · exact ih (i + 1) (by omega)
    · exact gcd_pred e he

theorem pickGo_cases (e : ℕ) (cands : ℕ → ℕ) :
    ∀ n i, 10 - i ≤ n →
      pickGo e cands i = e - 1 ∨ ∃ j, i ≤ j ∧ j < 10 ∧ pickGo e cands i = cands j := by
  intro n
  induction n with
  | zero =>
    intro i hi
    rw [pickGo]
    have h10 : ¬ i < 10 := by omega
    simp [h10]
  | succ n ih =>
    intro i hi
    rw [pickGo]
    split
    · rename_i h10
      split
      · exact Or.inr ⟨i, le_refl i, h10, rfl⟩
      · rcases ih (i + 1) (by omega) with h | ⟨j, hj1, hj2, hj3⟩
        · exact Or.inl h
        · exact Or.inr ⟨j, by omega, hj2, hj3⟩
    · exact Or.inl rfl

theorem pickGo_fallback (e : ℕ) (cands : ℕ → ℕ)
    (hnc : ∀ j, j < 10 → Nat.gcd e (cands j) ≠ 1) :
    ∀ n i, 10 - i ≤ n → pickGo e cands i = e - 1 := by
  intro n
  induction n with
  | zero =>
    intro i hi
    rw [pickGo]
    have h10 : ¬ i < 10 := by omega
    simp [h10]
  | succ n ih =>
    intro i hi
    rw [pickGo]
    split
    · rename_i h10
      have := hnc i h10
      split
      · exact absurd (by assumption) this
      · exact ih (i + 1) (by omega)
    · rfl

theorem pick_random_coprime_gcd (e : ℕ) (he : 1 ≤ e) (cands : ℕ → ℕ) :
    Nat.gcd e (pick_random_coprime e cands) = 1 :=
  pickGo_gcd e he cands 11 0 (by omega)

/-- **C9.** For every total `N ≥ 1` the step returned by
`pick_random_coprime` is coprime to `N`: each of the at most 10 tested
candidates (all drawn from `[N/4, N - N/4)`) is returned only when coprime,
and if none is coprime the fallback `N - 1` — itself always coprime to `N` —
is returned, so the returned step is either a drawn candidate in the
interval or `N - 1`, and its gcd with `N` is always 1. -/
theorem pick_random_coprime_spec (e : ℕ) (cands : ℕ → ℕ) (he : 1 ≤ e)
    (hc : ∀ i, i < 10 → e / 4 ≤ cands i ∧ cands i < e - e / 4) :
    Nat.gcd e (pick_random_coprime e cands) = 1 ∧
      (pick_random_coprime e cands = e - 1 ∨
        (e / 4 ≤ pick_random_coprime e cands ∧
          pick_random_coprime e cands < e - e / 4)) ∧
      ((∀ j, j < 10 → Nat.gcd e (cands j) ≠ 1) →
        pick_random_coprime e cands = e - 1) ∧
      Nat.gcd e (e - 1) = 1 := by
  refine ⟨pick_random_coprime_gcd e he cands, ?_, ?_, gcd_pred e he⟩
  · rcases pickGo_cases e cands 11 0 (by omega) with h | ⟨j, _, hj2, hj3⟩
    · exact Or.inl h
    · rw [pick_random_coprime, hj3]
      exact Or.inr (hc j hj2)
  · intro hnc
    exact pickGo_fallback e cands hnc 11 0 (by omega)

/-- Witness for `pick_random_coprime_spec` at `N = 8` with the constant
candidate stream `4` (never coprime to 8, exercising the fallback). -/
theorem pick_random_coprime_spec_witness :
    (1 ≤ 8 ∧ ∀ i, i < 10 → 8 / 4 ≤ (fun _ : ℕ => 4) i ∧ (fun _ : ℕ => 4) i < 8 - 8 / 4) ∧
      (Nat.gcd 8 (pick_random_coprime 8 (fun _ => 4)) = 1 ∧
        (pick_random_coprime 8 (fun _ => 4) = 8 - 1 ∨
          (8 / 4 ≤ pick_random_coprime 8 (fun _ => 4) ∧
            pick_random_coprime 8 (fun _ => 4) < 8 - 8 / 4)) ∧
        ((∀ j, j < 10 → Nat.gcd 8 ((fun _ : ℕ => 4) j) ≠ 1) →
          pick_random_coprime 8 (fun _ => 4) = 8 - 1) ∧
        Nat.gcd 8 (8 - 1) = 1) :=
  ⟨⟨by decide, fun i _ => by constructor <;> norm_num⟩,
    pick_random_coprime_spec 8 (fun _ => 4) (by decide) (fun i _ => by constructor <;> norm_num)⟩

/-! ## Randomized iterator (`RangeIterator::new_random` + the LCG path of `next`)

`new_random` normalizes the inclusive ranges to `(start, end_exclusive)`,
sorts them by start (`sort_unstable_by_key`), merges overlapping or adjacent
ranges into `(start, len)` blocks, builds a prefix-sum array with
`u32::saturating_add`, and draws a step coprime to the total and a first
pick below the total. -/

/-- `(*s as u32, (*e as u32) + 1)` — inclusive to exclusive. -/
def normalizeRanges (input : List (ℕ × ℕ)) : List (ℕ × ℕ) :=
  input.map (fun r => (r.1, r.2 + 1))

/-- The key order of `ranges.sort_unstable_by_key(|&(s, _)| s)`. -/
def startLe (a b : ℕ × ℕ) : Prop := a.1 ≤ b.1

instance decStartLe : DecidableRel startLe := fun a b => Nat.decLe a.1 b.1

instance instTotalStartLe : IsTotal (ℕ × ℕ) startLe := ⟨fun a b => Nat.le_total a.1 b.1⟩

instance instTransStartLe : IsTrans (ℕ × ℕ) startLe := ⟨fun _ _ _ h1 h2 => Nat.le_trans h1 h2⟩

/-- `ranges.sort_unstable_by_key(|&(s, _)| s)` (any sort by start is a
faithful model of the unstable sort). -/
def sortRanges (l : List (ℕ × ℕ)) : List (ℕ × ℕ) :=
  List.insertionSort startLe l

/-- The merge loop of `new_random`: accumulator `(cur_s, cur_end)` with
`cur_end` exclusive; overlapping or adjacent ranges extend the accumulator,
a gap pushes the block `(cur_s, cur_end - cur_s)` as `(start, len)`. -/
def mergeGo (cs ce : ℕ) : List (ℕ × ℕ) → List (ℕ × ℕ)
  | [] => [(cs, ce - cs)]
  | (s, e) :: rest =>
    if s ≤ ce then mergeGo cs (max ce e) rest
    else (cs, ce - cs) :: mergeGo s e rest

/-- The merged `(start, len)` blocks stored in `RangeIterator.ranges`. -/
def mergedRanges (input : List (ℕ × ℕ)) : List (ℕ × ℕ) :=
  match sortRanges (normalizeRanges input) with
  | [] => []
  | (s, e) :: rest => mergeGo s e rest

/-- `u32::saturating_add`. -/
def satAdd (a b : ℕ) : ℕ := min (a + b) (2 ^ 32 - 1)

/-- The fold building `RangeIterator.prefix`:
`merged.iter().fold(vec![0u32], |acc, (_, len)| acc.push(acc.last().saturating_add(len)))`. -/
def pfxSums (merged : List (ℕ × ℕ)) : List ℕ :=
  merged.foldl (fun acc r => acc ++ [satAdd (acc.getLastD 0) r.2]) [0]

/-- `total = *prefix.last().unwrap()`. -/
def totalPorts (input : List (ℕ × ℕ)) : ℕ :=
  (pfxSums (mergedRanges input)).getLastD 0

/-- The binary search of the LCG path of `next`: find `idx` with
`prefix[idx] <= cur < prefix[idx + 1]` (the midpoint `(lo + hi) / 2` is
inlined). -/
def bsearchGo (pfxL : List ℕ) (cur : ℕ) (lo hi : ℕ) : ℕ :=
  if lo < hi then
    if cur < pfxL.getD ((lo + hi) / 2 + 1) 0 then bsearchGo pfxL cur lo ((lo + hi) / 2)
    else bsearchGo pfxL cur ((lo + hi) / 2 + 1) hi
  else lo
termination_by hi - lo
decreasing_by all_goals omega

/-- Steps 4–5 of `next`: map the normalized index `cur` to a port through the
prefix array and the merged blocks. -/
def portOfIndex (ranges : List (ℕ × ℕ)) (pfxL : List ℕ) (cur : ℕ) : ℕ :=
  (ranges.getD (bsearchGo pfxL cur 0 ranges.length) (0, 0)).1 +
    (cur - pfxL.getD (bsearchGo pfxL cur 0 ranges.length) 0)

/-- The state of a randomized `RangeIterator` (serial fields omitted: they
are `None` in random mode). -/
structure RangeIt where
  active : Bool
  total : ℕ
  normalized_first_pick : ℕ
  normalized_pick : ℕ
  step : ℕ
  ranges : List (ℕ × ℕ)
  pfx : List ℕ

/-- The LCG path of `RangeIterator::next`: emit the port of the current
normalized index, advance by `step` mod `total`, and deactivate when the
next index returns to the first pick. -/
def nextR (it : RangeIt) : Option (ℕ × RangeIt) :=
  if !it.active then none
  else
    some (portOfIndex it.ranges it.pfx it.normalized_pick,
      { it with
          active := !((it.normalized_pick + it.step) % it.total == it.normalized_first_pick)
          normalized_pick := (it.normalized_pick + it.step) % it.total })

/-- Run the iterator to exhaustion (with fuel; the iterator stops by itself
after `total` emissions). -/
def emitR : ℕ → RangeIt → List ℕ
  | 0, _ => []
  | fuel + 1, it =>
    match nextR it with
    | none => []
    | some (p, it') => p :: emitR fuel it'

/-- `RangeIterator::new_random(input)`, with the candidate draws of
`pick_random_coprime` passed as `cands` and the seed draw
`rng.random_range(0..total)` passed as `first`. -/
def new_random (input : List (ℕ × ℕ)) (cands : ℕ → ℕ) (first : ℕ) : RangeIt :=
  { active := true
    total := totalPorts input
    normalized_first_pick := first
    normalized_pick := first
    step := pick_random_coprime (totalPorts input) cands
    ranges := mergedRanges input
    pfx := pfxSums (mergedRanges input) }

/-- The full port sequence emitted by a randomized `RangeIterator`. -/
def randomPorts (input : List (ℕ × ℕ)) (cands : ℕ → ℕ) (first : ℕ) : List ℕ :=
  emitR (totalPorts input + 1) (new_random input cands first)

/-! ### Correctness of the sort-merge normalization -/

/-- Coverage by `(start, end_exclusive)` pairs. -/
def covE (l : List (ℕ × ℕ)) (x : ℕ) : Prop := ∃ r ∈ l, r.1 ≤ x ∧ x < r.2

/-- Coverage by `(start, len)` blocks. -/
def covB (l : List (ℕ × ℕ)) (x : ℕ) : Prop := ∃ b ∈ l, b.1 ≤ x ∧ x < b.1 + b.2

/-- Two `(start, len)` blocks separated by a gap. -/
def gapRel (a b : ℕ × ℕ) : Prop := a.1 + a.2 < b.1

instance instTransGapRel : IsTrans (ℕ × ℕ) gapRel :=
  ⟨fun a b c h1 h2 => by unfold gapRel at *; omega⟩

theorem covE_cons {r : ℕ × ℕ} {t : List (ℕ × ℕ)} {x : ℕ} :
    covE (r :: t) x ↔ (r.1 ≤ x ∧ x < r.2) ∨ covE t x := by
  simp [covE]

theorem covB_cons {b : ℕ × ℕ} {t : List (ℕ × ℕ)} {x : ℕ} :
    covB (b :: t) x ↔ (b.1 ≤ x ∧ x < b.1 + b.2) ∨ covB t x := by
  simp [covB]

theorem mergeGo_first (rest : List (ℕ × ℕ)) :
    ∀ cs ce, ∃ len tail, mergeGo cs ce rest = (cs, len) :: tail := by
  induction rest with
  | nil => exact fun cs ce => ⟨ce - cs, [], rfl⟩
  | cons r t ih =>
    obtain ⟨s, e⟩ := r
    intro cs ce
    simp only [mergeGo]
    split
    · exact ih cs (max ce e)
    · exact ⟨ce - cs, mergeGo s e t, rfl⟩

theorem mergeGo_cov (rest : List (ℕ × ℕ)) :
    ∀ cs ce x, cs < ce → (∀ r ∈ rest, r.1 < r.2) → (∀ r ∈ rest, cs ≤ r.1) →
      List.Pairwise startLe rest →
      (covB (mergeGo cs ce rest) x ↔ (cs ≤ x ∧ x < ce) ∨ covE rest x) := by
  induction rest with
  | nil =>
    intro cs ce x hce _ _ _
    simp only [mergeGo, covB_cons, covE, List.not_mem_nil]
    constructor
    · rintro (⟨h1, h2⟩ | h)
      · exact Or.inl ⟨h1, by omega⟩
      · simp [covB] at h
    · rintro (⟨h1, h2⟩ | ⟨r, hr, _⟩)
      · exact Or.inl ⟨h1, by omega⟩
      · exact absurd hr (by simp)
  | cons r t ih =>
    obtain ⟨s, e⟩ := r
    intro cs ce x hce hlt hcs hpw
    have hse' : s < e := hlt (s, e) (List.mem_cons_self _ _)
    have hcss : cs ≤ s := hcs (s, e) (List.mem_cons_self _ _)
    have hpwt : List.Pairwise startLe t := hpw.of_cons
    have hst : ∀ r ∈ t, s ≤ r.1 := (List.pairwise_cons.mp hpw).1
    simp only [mergeGo]
    split
    · rename_i hse
      rw [ih cs (max ce e) x (by omega)
          (fun r hr => hlt r (List.mem_cons_of_mem _ hr))
          (fun r hr => hcs r (List.mem_cons_of_mem _ hr)) hpwt]
      rw [covE_cons]
      constructor
      · rintro (⟨h1, h2⟩ | h)
        · rcases Nat.lt_or_ge x ce with h3 | h3
          · exact Or.inl ⟨h1, h3⟩
          · exact Or.inr (Or.inl ⟨by omega, by omega⟩)
        · exact Or.inr (Or.inr h)
      · rintro (⟨h1, h2⟩ | ⟨h1, h2⟩ | h)
        · exact Or.inl ⟨h1, by omega⟩
        · exact Or.inl ⟨by omega, by omega⟩
        · exact Or.inr h
    · rename_i hse
      rw [covB_cons, ih s e x hse' (fun r hr => hlt r (List.mem_cons_of_mem _ hr)) hst hpwt,
        covE_cons]
      constructor
      · rintro (⟨h1, h2⟩ | ⟨h1, h2⟩ | h)
        · exact Or.inl ⟨h1, by omega⟩
        · exact Or.inr (Or.inl ⟨h1, h2⟩)
        · exact Or.inr (Or.inr h)
      · rintro (⟨h1, h2⟩ | ⟨h1, h2⟩ | h)
        · exact Or.inl ⟨h1, by omega⟩
        · exact Or.inr (Or.inl ⟨h1, h2⟩)
        · exact Or.inr (Or.inr h)

theorem mergeGo_gapped (rest : List (ℕ × ℕ)) :
    ∀ cs ce, cs < ce → (∀ r ∈ rest, r.1 < r.2) → List.Pairwise startLe rest →
      List.Chain' gapRel (mergeGo cs ce rest) ∧ ∀ b ∈ mergeGo cs ce rest, 0 < b.2 := by
  induction rest with
  | nil =>
    intro cs ce hce _ _
    refine ⟨List.chain'_singleton _, ?_⟩
    intro b hb
    simp only [mergeGo, List.mem_singleton] at hb
    subst hb
    simp
    omega
  | cons r t ih =>
    obtain ⟨s, e⟩ := r
    intro cs ce hce hlt hpw
    have hse' : s < e := hlt (s, e) (List.mem_cons_self _ _)
    have hpwt : List.Pairwise startLe t := hpw.of_cons
    simp only [mergeGo]
    split
    · exact ih cs (max ce e) (by omega) (fun r hr => hlt r (List.mem_cons_of_mem _ hr)) hpwt
    · rename_i hse
      obtain ⟨hchain, hpos⟩ :=
        ih s e hse' (fun r hr => hlt r (List.mem_cons_of_mem _ hr)) hpwt
      constructor
      · rw [List.chain'_cons']
        refine ⟨?_, hchain⟩
        intro y hy
        obtain ⟨len, tail, heq⟩ := mergeGo_first t s e
        rw [heq] at hy
        simp only [List.head?_cons, Option.mem_def, Option.some.injEq] at hy
        subst hy
        unfold gapRel
        simp
        omega
      · intro b hb
        rcases List.mem_cons.mp hb with rfl | hb
        · simp; omega
        · exact hpos b hb

theorem covE_normalize {input : List (ℕ × ℕ)} {x : ℕ} :
    covE (normalizeRanges input) x ↔ inRanges input x := by
  simp only [covE, normalizeRanges, inRanges, List.mem_map]
  constructor
  · rintro ⟨r, ⟨a, ha, rfl⟩, h1, h2⟩
    exact ⟨a, ha, h1, by omega⟩
  · rintro ⟨a, ha, h1, h2⟩
    exact ⟨(a.1, a.2 + 1), ⟨a, ha, rfl⟩, h1, by omega⟩

theorem covE_sortRanges {l : List (ℕ × ℕ)} {x : ℕ} :
    covE (sortRanges l) x ↔ covE l x := by
  simp only [covE]
  constructor
  · rintro ⟨r, hr, h⟩
    exact ⟨r, (List.perm_insertionSort startLe l).mem_iff.mp hr, h⟩
  · rintro ⟨r, hr, h⟩
    exact ⟨r, (List.perm_insertionSort startLe l).mem_iff.mpr hr, h⟩

/-- The merged block list of a non-empty well-formed input: it covers exactly
the union of the input ranges, consecutive blocks are separated by gaps, all
lengths are positive, and it is non-empty. -/
theorem merged_facts (input : List (ℕ × ℕ)) (hne : input ≠ [])
    (hle : ∀ r ∈ input, r.1 ≤ r.2) :
    (∀ x, covB (mergedRanges input) x ↔ inRanges input x) ∧
      List.Chain' gapRel (mergedRanges input) ∧
      (∀ b ∈ mergedRanges input, 0 < b.2) ∧ mergedRanges input ≠ [] := by
  have hL : sortRanges (normalizeRanges input) ≠ [] := by
    intro h
    have hlen : (normalizeRanges input).length = 0 := by
      rw [← (List.perm_insertionSort startLe (normalizeRanges input)).length_eq,
        show List.insertionSort startLe (normalizeRanges input) =
          sortRanges (normalizeRanges input) from rfl, h]
      rfl
    simp only [normalizeRanges, List.length_map] at hlen
    exact hne (List.length_eq_zero.mp hlen)
  obtain ⟨⟨s, e⟩, rest, hLeq⟩ : ∃ r rest, sortRanges (normalizeRanges input) = r :: rest := by
    cases h : sortRanges (normalizeRanges input) with
    | nil => exact absurd h hL
    | cons r rest => exact ⟨r, rest, rfl⟩
  have hsorted : List.Pairwise startLe (sortRanges (normalizeRanges input)) :=
    List.sorted_insertionSort startLe (normalizeRanges input)
  have hmemlt : ∀ r ∈ sortRanges (normalizeRanges input), r.1 < r.2 := by
    intro r hr
    have : r ∈ normalizeRanges input :=
      (List.perm_insertionSort startLe (normalizeRanges input)).mem_iff.mp hr
    simp only [normalizeRanges, List.mem_map] at this
    obtain ⟨a, ha, rfl⟩ := this
    have := hle a ha
    simp
    omega
  rw [hLeq] at hsorted hmemlt
  have hse : s < e := hmemlt (s, e) (List.mem_cons_self _ _)
  have hcs : ∀ r ∈ rest, s ≤ r.1 := (List.pairwise_cons.mp hsorted).1
  have hlt : ∀ r ∈ rest, r.1 < r.2 := fun r hr => hmemlt r (List.mem_cons_of_mem _ hr)
  have hpw : List.Pairwise startLe rest := hsorted.of_cons
  have hMR : mergedRanges input = mergeGo s e rest := by
    unfold mergedRanges
    rw [hLeq]
  refine ⟨?_, ?_, ?_, ?_⟩
  · intro x
    rw [hMR, mergeGo_cov rest s e x hse hlt hcs hpw, ← @covE_normalize input x,
      ← @covE_sortRanges (normalizeRanges input) x, hLeq, covE_cons]
  · rw [hMR]
    exact (mergeGo_gapped rest s e hse hlt hpw).1
  · rw [hMR]
    exact (mergeGo_gapped rest s e hse hlt hpw).2
  · rw [hMR]
    obtain ⟨len, tail, h⟩ := mergeGo_first rest s e
    simp [h]

/-- Every merged block stays inside the `u16` domain. -/
theorem merged_block_bound (input : List (ℕ × ℕ)) (hne : input ≠ [])
    (hle : ∀ r ∈ input, r.1 ≤ r.2) (hub : ∀ r ∈ input, r.2 ≤ 65535) :
    ∀ b ∈ mergedRanges input, b.1 + b.2 ≤ 65536 := by
  obtain ⟨hcov, _, hpos, _⟩ := merged_facts input hne hle
  intro b hb
  have hlen := hpos b hb
  have : covB (mergedRanges input) (b.1 + b.2 - 1) := ⟨b, hb, by omega, by omega⟩
  obtain ⟨r, hr, _, h2⟩ := (hcov _).mp this
  have := hub r hr
  omega

/-! ### The prefix array -/

/-- Partial sums of block lengths: `pSum B j` is the number of ports in the
first `j` merged blocks. -/
def pSum (B : List (ℕ × ℕ)) (j : ℕ) : ℕ := ((B.map Prod.snd).take j).sum

/-- Specification list of `RangeIterator.prefix` beyond the leading `0`. -/
def pfAux (a : ℕ) : List (ℕ × ℕ) → List ℕ
  | [] => []
  | r :: t => (a + r.2) :: pfAux (a + r.2) t

theorem satAdd_eq {a b : ℕ} (h : a + b ≤ 2 ^ 32 - 1) : satAdd a b = a + b :=
  Nat.min_eq_left h

theorem pfxSums_foldl :
    ∀ (l : List (ℕ × ℕ)) (acc : List ℕ) (a : ℕ), acc.getLastD 0 = a →
      a + (l.map Prod.snd).sum ≤ 2 ^ 32 - 1 →
      l.foldl (fun acc r => acc ++ [satAdd (acc.getLastD 0) r.2]) acc = acc ++ pfAux a l := by
  intro l
  induction l with
  | nil => intro acc a _ _; simp [pfAux]
  | cons r t ih =>
    intro acc a hlast hbound
    simp only [List.map_cons, List.sum_cons] at hbound
    have hsat : satAdd (acc.getLastD 0) r.2 = a + r.2 := by
      rw [hlast]
      exact satAdd_eq (by omega)
    simp only [List.foldl_cons, hsat]
    rw [ih (acc ++ [a + r.2]) (a + r.2) (by simp) (by omega)]
    simp [pfAux]

theorem pfxSums_eq (B : List (ℕ × ℕ)) (hbound : (B.map Prod.snd).sum ≤ 2 ^ 32 - 1) :
    pfxSums B = 0 :: pfAux 0 B := by
  have := pfxSums_foldl B [0] 0 rfl (by omega)
  simpa [pfxSums] using this

theorem pfAux_getD :
    ∀ (B : List (ℕ × ℕ)) (a j), j < B.length → (pfAux a B).getD j 0 = a + pSum B (j + 1) := by
  intro B
  induction B with
  | nil => intro a j h; simp at h
  | cons r t ih =>
    intro a j h
    cases j with
    | zero => simp [pfAux, pSum]
    | succ j =>
      simp only [pfAux, List.getD_cons_succ]
      rw [ih (a + r.2) j (by simpa using h)]
      simp [pSum]
      omega

theorem pfx_getD (B : List (ℕ × ℕ)) (hbound : (B.map Prod.snd).sum ≤ 2 ^ 32 - 1) :
    ∀ j, j ≤ B.length → (pfxSums B).getD j 0 = pSum B j := by
  intro j hj
  rw [pfxSums_eq B hbound]
  cases j with
  | zero => simp [pSum]
  | succ j =>
    simp only [List.getD_cons_succ]
    rw [pfAux_getD B 0 j (by omega)]
    omega

theorem cons_pfAux_getLastD :
    ∀ (B : List (ℕ × ℕ)) (a d : ℕ), (a :: pfAux a B).getLastD d = a + (B.map Prod.snd).sum := by
  intro B
  induction B with
  | nil => intro a d; simp [pfAux]
  | cons r t ih =>
    intro a d
    simp only [pfAux, List.getLastD_cons]
    have h2 := ih (a + r.2) a
    simp only [List.getLastD_cons] at h2
    rw [h2]
    simp
    omega

theorem pSum_length (B : List (ℕ × ℕ)) : pSum B B.length = (B.map Prod.snd).sum := by
  unfold pSum
  rw [List.take_of_length_le (by simp)]

theorem pfx_total (B : List (ℕ × ℕ)) (hbound : (B.map Prod.snd).sum ≤ 2 ^ 32 - 1) :
    (pfxSums B).getLastD 0 = pSum B B.length := by
  rw [pfxSums_eq B hbound, cons_pfAux_getLastD B 0 0, pSum_length]
  omega

theorem pSum_succ (B : List (ℕ × ℕ)) {j : ℕ} (h : j < B.length) :
    pSum B (j + 1) = pSum B j + (B.getD j (0, 0)).2 := by
  unfold pSum
  rw [List.sum_take_succ (B.map Prod.snd) j (by simpa using h)]
  congr 1
  rw [List.getD_eq_getElem B (0, 0) h]
  simp

theorem pSum_le_succ (B : List (ℕ × ℕ)) (j : ℕ) : pSum B j ≤ pSum B (j + 1) := by
  by_cases h : j < B.length
  · rw [pSum_succ B h]; omega
  · unfold pSum
    rw [List.take_of_length_le (by simp; omega), List.take_of_length_le (by simp; omega)]

theorem pSum_mono (B : List (ℕ × ℕ)) {j k : ℕ} (h : j ≤ k) : pSum B j ≤ pSum B k := by
  induction k with
  | zero => simp_all
  | succ k ih =>
    rcases Nat.lt_or_ge j (k + 1) with h2 | h2
    · exact le_trans (ih (by omega)) (pSum_le_succ B k)
    · have : j = k + 1 := by omega
      subst this
      exact le_refl _

theorem pSum_lt_succ (B : List (ℕ × ℕ)) {j : ℕ} (h : j < B.length)
    (hpos : ∀ b ∈ B, 0 < b.2) : pSum B j < pSum B (j + 1) := by
  rw [pSum_succ B h]
  have hmem : B.getD j (0, 0) ∈ B := by
    rw [List.getD_eq_getElem B (0, 0) h]
    exact List.getElem_mem h
  have := hpos _ hmem
  omega

/-! ### Correctness of the binary search and the index-to-port map -/

theorem bsearchGo_eq (pfxL : List ℕ) (cur n A : ℕ)
    (hlow : ∀ j, j ≤ A → pfxL.getD j 0 ≤ cur)
    (hhigh : ∀ j, A < j → j ≤ n → cur < pfxL.getD j 0) :
    ∀ fuel lo hi, hi - lo ≤ fuel → lo ≤ A → A ≤ hi → hi ≤ n →
      bsearchGo pfxL cur lo hi = A := by
  intro fuel
  induction fuel with
  | zero =>
    intro lo hi h1 h2 h3 h4
    rw [bsearchGo]
    have hno : ¬ lo < hi := by omega
    simp only [hno, if_false]
    omega
  | succ fuel ih =>
    intro lo hi h1 h2 h3 h4
    rw [bsearchGo]
    split
    · rename_i hlt
      split
      · rename_i hcond
        have hA : A ≤ (lo + hi) / 2 := by
          by_contra hA
          have := hlow ((lo + hi) / 2 + 1) (by omega)
          omega
        exact ih lo ((lo + hi) / 2) (by omega) h2 hA (by omega)
      · rename_i hcond
        have hA : (lo + hi) / 2 + 1 ≤ A := by
          by_contra hA
          have := hhigh ((lo + hi) / 2 + 1) (by omega) (by omega)
          omega
        exact ih ((lo + hi) / 2 + 1) hi (by omega) hA h3 h4
    · omega

/-- The block index `idx` with `prefix[idx] <= cur < prefix[idx + 1]`. -/
def rankOf (B : List (ℕ × ℕ)) (cur : ℕ) : ℕ :=
  Nat.findGreatest (fun j => pSum B j ≤ cur) B.length

theorem rankOf_spec (B : List (ℕ × ℕ)) (cur : ℕ)
    (hcur : cur < pSum B B.length) :
    rankOf B cur < B.length ∧ pSum B (rankOf B cur) ≤ cur ∧
      cur < pSum B (rankOf B cur + 1) := by
  have h0 : pSum B 0 ≤ cur := by simp [pSum]
  have hle : rankOf B cur ≤ B.length := Nat.findGreatest_le B.length
  have hspec : pSum B (rankOf B cur) ≤ cur := by
    have := Nat.findGreatest_spec (P := fun j => pSum B j ≤ cur)
      (m := 0) (n := B.length) (Nat.zero_le _) h0
    simpa [rankOf] using this
  have hlt : rankOf B cur < B.length := by
    rcases Nat.lt_or_ge (rankOf B cur) B.length with h | h
    · exact h
    · exfalso
      have heq : rankOf B cur = B.length := by omega
      rw [heq] at hspec
      omega
  refine ⟨hlt, hspec, ?_⟩
  have hgt := Nat.findGreatest_is_greatest (P := fun j => pSum B j ≤ cur)
    (n := B.length) (k := rankOf B cur + 1)
    (show Nat.findGreatest (fun j => pSum B j ≤ cur) B.length < rankOf B cur + 1 from
      Nat.lt_succ_self _) (by omega)
  simp only [not_le] at hgt
  exact hgt

theorem portOfIndex_eq (B : List (ℕ × ℕ))
    (hbound : (B.map Prod.snd).sum ≤ 2 ^ 32 - 1) {cur : ℕ}
    (hcur : cur < pSum B B.length) :
    bsearchGo (pfxSums B) cur 0 B.length = rankOf B cur ∧
      portOfIndex B (pfxSums B) cur =
        (B.getD (rankOf B cur) (0, 0)).1 + (cur - pSum B (rankOf B cur)) := by
  obtain ⟨hlt, hlo, hhi⟩ := rankOf_spec B cur hcur
  have hbs : bsearchGo (pfxSums B) cur 0 B.length = rankOf B cur := by
    apply bsearchGo_eq (pfxSums B) cur B.length (rankOf B cur)
    · intro j hj
      rw [pfx_getD B hbound j (by omega)]
      exact le_trans (pSum_mono B hj) hlo
    · intro j hj1 hj2
      rw [pfx_getD B hbound j hj2]
      exact lt_of_lt_of_le hhi (pSum_mono B (by omega))
    · exact le_refl _
    · exact Nat.zero_le _
    · omega
    · exact le_refl _
  refine ⟨hbs, ?_⟩
  unfold portOfIndex
  rw [hbs, pfx_getD B hbound _ (le_of_lt hlt)]

theorem portOfIndex_mem (B : List (ℕ × ℕ))
    (hbound : (B.map Prod.snd).sum ≤ 2 ^ 32 - 1) {cur : ℕ}
    (hcur : cur < pSum B B.length) :
    covB B (portOfIndex B (pfxSums B) cur) := by
  obtain ⟨hlt, hlo, hhi⟩ := rankOf_spec B cur hcur
  obtain ⟨_, hport⟩ := portOfIndex_eq B hbound hcur
  rw [pSum_succ B hlt] at hhi
  refine ⟨B.getD (rankOf B cur) (0, 0), ?_, ?_, ?_⟩
  · rw [List.getD_eq_getElem B (0, 0) hlt]
    exact List.getElem_mem hlt
  · rw [hport]; omega
  · rw [hport]; omega

theorem portOfIndex_strictMono (B : List (ℕ × ℕ))
    (hbound : (B.map Prod.snd).sum ≤ 2 ^ 32 - 1)
    (hgap : List.Pairwise gapRel B) {c1 c2 : ℕ}
    (h12 : c1 < c2) (hc2 : c2 < pSum B B.length) :
    portOfIndex B (pfxSums B) c1 < portOfIndex B (pfxSums B) c2 := by
  have hc1 : c1 < pSum B B.length := lt_trans h12 hc2
  obtain ⟨hlt1, hlo1, hhi1⟩ := rankOf_spec B c1 hc1
  obtain ⟨hlt2, hlo2, hhi2⟩ := rankOf_spec B c2 hc2
  obtain ⟨_, hport1⟩ := portOfIndex_eq B hbound hc1
  obtain ⟨_, hport2⟩ := portOfIndex_eq B hbound hc2
  rw [hport1, hport2]
  rcases lt_trichotomy (rankOf B c1) (rankOf B c2) with h | h | h
  · have hgap12 : gapRel (B.getD (rankOf B c1) (0, 0)) (B.getD (rankOf B c2) (0, 0)) := by
      rw [List.getD_eq_getElem B (0, 0) hlt1, List.getD_eq_getElem B (0, 0) hlt2]
      exact List.pairwise_iff_getElem.mp hgap _ _ hlt1 hlt2 h
    unfold gapRel at hgap12
    rw [pSum_succ B hlt1] at hhi1
    omega
  · rw [h] at hlo1 hhi1
    rw [h]
    omega
  · exfalso
    have := pSum_mono B (show rankOf B c2 + 1 ≤ rankOf B c1 by omega)
    omega

theorem portOfIndex_surj (B : List (ℕ × ℕ))
    (hbound : (B.map Prod.snd).sum ≤ 2 ^ 32 - 1) {x : ℕ} (hx : covB B x) :
    ∃ cur, cur < pSum B B.length ∧ portOfIndex B (pfxSums B) cur = x := by
  obtain ⟨b, hb, hx1, hx2⟩ := hx
  obtain ⟨j, hj, hbj⟩ := List.mem_iff_getElem.mp hb
  have hgetD : B.getD j (0, 0) = b := by rw [List.getD_eq_getElem B (0, 0) hj, hbj]
  have hcur : pSum B j + (x - b.1) < pSum B B.length := by
    calc pSum B j + (x - b.1) < pSum B (j + 1) := by
          rw [pSum_succ B hj, hgetD]; omega
      _ ≤ pSum B B.length := pSum_mono B (by omega)
  refine ⟨pSum B j + (x - b.1), hcur, ?_⟩
  obtain ⟨hlt, hlo, hhi⟩ := rankOf_spec B _ hcur
  have hrank : rankOf B (pSum B j + (x - b.1)) = j := by
    rcases lt_trichotomy (rankOf B (pSum B j + (x - b.1))) j with h | h | h
    · exfalso
      have := pSum_mono B (show rankOf B (pSum B j + (x - b.1)) + 1 ≤ j by omega)
      omega
    · exact h
    · exfalso
      have h1 := pSum_mono B (show j + 1 ≤ rankOf B (pSum B j + (x - b.1)) by omega)
      rw [pSum_succ B hj, hgetD] at h1
      omega
  obtain ⟨_, hport⟩ := portOfIndex_eq B hbound hcur
  rw [hport, hrank, hgetD]
  omega

/-! ### The additive-congruential walk -/

/-- The normalized index after `i` steps of the walk
`x(i+1) = (x(i) + step) % total`. -/
def orbit (first step total i : ℕ) : ℕ := (first + i * step) % total

theorem orbit_zero {first total : ℕ} (step : ℕ) (h : first < total) :
    orbit first step total 0 = first := by
  simp [orbit, Nat.mod_eq_of_lt h]

theorem orbit_lt {total : ℕ} (first step : ℕ) (h : 0 < total) (i : ℕ) :
    orbit first step total i < total := Nat.mod_lt _ h

theorem orbit_succ (first step total i : ℕ) :
    orbit first step total (i + 1) = (orbit first step total i + step) % total := by
  unfold orbit
  rw [Nat.mod_add_mod]
  congr 1
  ring

theorem orbit_total {first total : ℕ} (step : ℕ) (h : first < total) :
    orbit first step total total = first := by
  unfold orbit
  rw [Nat.add_mul_mod_self_left, Nat.mod_eq_of_lt h]

theorem orbit_inj {first step total : ℕ} (hco : Nat.gcd total step = 1) {i j : ℕ}
    (hi : i < total) (hj : j < total)
    (hij : orbit first step total i = orbit first step total j) : i = j := by
  have h1 : first + i * step ≡ first + j * step [MOD total] := hij
  have h2 : i * step ≡ j * step [MOD total] := Nat.ModEq.add_left_cancel' first h1
  have h3 : i ≡ j [MOD total] := Nat.ModEq.cancel_right_of_coprime hco h2
  have h4 : i % total = j % total := h3
  rw [Nat.mod_eq_of_lt hi, Nat.mod_eq_of_lt hj] at h4
  exact h4

theorem orbit_surj {first step total : ℕ} (hco : Nat.gcd total step = 1)
    (htot : 0 < total) {v : ℕ} (hv : v < total) :
    ∃ i, i < total ∧ orbit first step total i = v := by
  have hinj : Function.Injective
      (fun i : Fin total =>
        (⟨orbit first step total i, orbit_lt first step htot i⟩ : Fin total)) := by
    intro a b hab
    exact Fin.ext (orbit_inj hco a.2 b.2 (congrArg Fin.val hab))
  obtain ⟨i, hi⟩ := (Finite.injective_iff_bijective.mp hinj).2 ⟨v, hv⟩
  exact ⟨i, i.2, congrArg Fin.val hi⟩

/-- Bound on the block lengths of a gap-separated list sitting below `M`. -/
theorem gap_sum_le (M : ℕ) :
    ∀ (l : List (ℕ × ℕ)) (a : ℕ), List.Pairwise gapRel l →
      (∀ b ∈ l, b.1 + b.2 ≤ M) → (∀ b ∈ l, a ≤ b.1) →
      (l.map Prod.snd).sum ≤ M - a := by
  intro l
  induction l with
  | nil => intro a _ _ _; simp
  | cons b t ih =>
    intro a hpw hM ha
    have hbM : b.1 + b.2 ≤ M := hM b (List.mem_cons_self _ _)
    have hab : a ≤ b.1 := ha b (List.mem_cons_self _ _)
    have hrec := ih (b.1 + b.2) hpw.of_cons
      (fun c hc => hM c (List.mem_cons_of_mem _ hc))
      (fun c hc => le_of_lt ((List.pairwise_cons.mp hpw).1 c hc))
    simp only [List.map_cons, List.sum_cons]
    omega

/-! ### Running the randomized iterator -/

/-- The iterator state reached after `i` emissions (while still active). -/
def stR (total first step : ℕ) (B : List (ℕ × ℕ)) (pfxL : List ℕ) (i : ℕ) : RangeIt :=
  { active := true
    total := total
    normalized_first_pick := first
    normalized_pick := orbit first step total i
    step := step
    ranges := B
    pfx := pfxL }

theorem emitR_inactive (fuel : ℕ) (it : RangeIt) (h : it.active = false) :
    emitR fuel it = [] := by
  cases fuel with
  | zero => rfl
  | succ f => simp [emitR, nextR, h]

theorem emitR_stR (total first step : ℕ) (B : List (ℕ × ℕ)) (pfxL : List ℕ)
    (hco : Nat.gcd total step = 1) (hf : first < total) :
    ∀ k i, i + (k + 1) = total → ∀ fuel, k + 1 ≤ fuel →
      emitR fuel (stR total first step B pfxL i) =
        (List.range (k + 1)).map
          (fun j => portOfIndex B pfxL (orbit first step total (i + j))) := by
  intro k
  induction k with
  | zero =>
    intro i hik fuel hfuel
    obtain ⟨f, rfl⟩ : ∃ f, fuel = f + 1 := ⟨fuel - 1, by omega⟩
    have hnext : (orbit first step total i + step) % total = first := by
      rw [← orbit_succ, show i + 1 = total by omega, orbit_total step hf]
    have hone : emitR (f + 1) (stR total first step B pfxL i) =
        portOfIndex B pfxL (orbit first step total i) ::
          emitR f
            { active := !((orbit first step total i + step) % total == first)
              total := total
              normalized_first_pick := first
              normalized_pick := (orbit first step total i + step) % total
              step := step
              ranges := B
              pfx := pfxL } := rfl
    rw [hone, emitR_inactive f _ (by rw [hnext]; simp)]
    rw [show List.range 1 = [0] from by decide]
    simp
  | succ k ih =>
    intro i hik fuel hfuel
    obtain ⟨f, rfl⟩ : ∃ f, fuel = f + 1 := ⟨fuel - 1, by omega⟩
    have htot : 0 < total := by omega
    have hne1 : (orbit first step total i + step) % total ≠ first := by
      rw [← orbit_succ]
      intro h
      have h0 : orbit first step total 0 = first := orbit_zero step hf
      have := @orbit_inj first step total hco (i + 1) 0
        (show i + 1 < total by omega) htot (h.trans h0.symm)
      omega
    have hbeq : ((orbit first step total i + step) % total == first) = false :=
      beq_eq_false_iff_ne.mpr hne1
    have hone : emitR (f + 1) (stR total first step B pfxL i) =
        portOfIndex B pfxL (orbit first step total i) ::
          emitR f
            { active := !((orbit first step total i + step) % total == first),
              total := total, normalized_first_pick := first,
              normalized_pick := (orbit first step total i + step) % total,
              step := step, ranges := B, pfx := pfxL } := rfl
    have hstate : stR total first step B pfxL (i + 1) =
        { active := !((orbit first step total i + step) % total == first),
          total := total, normalized_first_pick := first,
          normalized_pick := (orbit first step total i + step) % total,
          step := step, ranges := B, pfx := pfxL } := by
      rw [stR, orbit_succ, hbeq]
      rfl
    rw [hone, ← hstate, ih (i + 1) (by omega) f (by omega)]
    conv_rhs => rw [List.range_succ_eq_map, List.map_cons, List.map_map]
    congr 1
    refine List.map_congr_left ?_
    intro a _
    have harg : i + 1 + a = i + (a + 1) := by omega
    rw [harg]
    rfl

theorem random_setup (input : List (ℕ × ℕ)) (hne : input ≠ [])
    (hle : ∀ r ∈ input, r.1 ≤ r.2) (hub : ∀ r ∈ input, r.2 ≤ 65535) :
    ((mergedRanges input).map Prod.snd).sum ≤ 2 ^ 32 - 1 ∧
      totalPorts input = pSum (mergedRanges input) (mergedRanges input).length ∧
      0 < totalPorts input := by
  obtain ⟨hcov, hgapC, hpos, hBne⟩ := merged_facts input hne hle
  have hgap : List.Pairwise gapRel (mergedRanges input) := List.chain'_iff_pairwise.mp hgapC
  have hbM := merged_block_bound input hne hle hub
  have hsum : ((mergedRanges input).map Prod.snd).sum ≤ 65536 := by
    have := gap_sum_le 65536 (mergedRanges input) 0 hgap hbM (fun b _ => Nat.zero_le _)
    omega
  have hpow : (2 : ℕ) ^ 32 - 1 = 4294967295 := by norm_num
  have hbound : ((mergedRanges input).map Prod.snd).sum ≤ 2 ^ 32 - 1 := by omega
  have htoteq : totalPorts input = pSum (mergedRanges input) (mergedRanges input).length := by
    unfold totalPorts
    exact pfx_total _ hbound
  refine ⟨hbound, htoteq, ?_⟩
  have hBlen : 0 < (mergedRanges input).length := List.length_pos.mpr hBne
  have h1 : pSum (mergedRanges input) 0 < pSum (mergedRanges input) 1 :=
    pSum_lt_succ _ hBlen hpos
  have h2 : pSum (mergedRanges input) 1 ≤ pSum (mergedRanges input) (mergedRanges input).length :=
    pSum_mono _ (by omega)
  have h0 : pSum (mergedRanges input) 0 = 0 := by simp [pSum]
  omega

theorem randomPorts_repr (input : List (ℕ × ℕ)) (cands : ℕ → ℕ) (first : ℕ)
    (hne : input ≠ []) (hle : ∀ r ∈ input, r.1 ≤ r.2) (hub : ∀ r ∈ input, r.2 ≤ 65535)
    (hf : first < totalPorts input) :
    randomPorts input cands first =
      (List.range (totalPorts input)).map
        (fun j => portOfIndex (mergedRanges input) (pfxSums (mergedRanges input))
          (orbit first (pick_random_coprime (totalPorts input) cands) (totalPorts input) j)) := by
  obtain ⟨hbound, htoteq, htot⟩ := random_setup input hne hle hub
  have hco := pick_random_coprime_gcd (totalPorts input) htot cands
  obtain ⟨t, ht⟩ : ∃ t, totalPorts input = t + 1 := ⟨totalPorts input - 1, by omega⟩
  have hnewst : new_random input cands first =
      stR (totalPorts input) first (pick_random_coprime (totalPorts input) cands)
        (mergedRanges input) (pfxSums (mergedRanges input)) 0 := by
    unfold new_random stR
    rw [orbit_zero _ hf]
  rw [ht] at hco
  rw [randomPorts, hnewst, ht,
    emitR_stR (t + 1) first (pick_random_coprime (t + 1) cands) (mergedRanges input)
      (pfxSums (mergedRanges input)) hco (by omega) t 0 (by omega) (t + 1 + 1) (by omega)]
  refine List.map_congr_left ?_
  intro a _
  simp

/-- **C1.** For every non-empty list of `u16` port ranges with
`start <= end` and every admissible random draw (a step-candidate stream and
a first pick below the total), the randomized `RangeIterator` emits a
duplicate-free sequence whose members are exactly the union of the ranges:
every port of the union appears exactly once, with no duplicates and no
omissions — in particular, for a single range, sorting the emitted
sequence yields the range in order. -/
theorem random_iterator_emits_union_once (input : List (ℕ × ℕ)) (cands : ℕ → ℕ)
    (first : ℕ) (hne : input ≠ []) (hle : ∀ r ∈ input, r.1 ≤ r.2)
    (hub : ∀ r ∈ input, r.2 ≤ 65535) (hf : first < totalPorts input) :
    (randomPorts input cands first).Nodup ∧
      ∀ p, p ∈ randomPorts input cands first ↔ inRanges input p := by
  obtain ⟨hbound, htoteq, htot⟩ := random_setup input hne hle hub
  obtain ⟨hcov, hgapC, hpos, hBne⟩ := merged_facts input hne hle
  have hgap : List.Pairwise gapRel (mergedRanges input) := List.chain'_iff_pairwise.mp hgapC
  have hco := pick_random_coprime_gcd (totalPorts input) htot cands
  rw [randomPorts_repr input cands first hne hle hub hf]
  constructor
  · refine List.Nodup.map_on ?_ (List.nodup_range _)
    intro x hx y hy hxy
    rw [List.mem_range] at hx hy
    have horbeq : orbit first (pick_random_coprime (totalPorts input) cands)
        (totalPorts input) x =
        orbit first (pick_random_coprime (totalPorts input) cands) (totalPorts input) y := by
      by_contra hne2
      have hox : orbit first (pick_random_coprime (totalPorts input) cands)
          (totalPorts input) x < pSum (mergedRanges input) (mergedRanges input).length := by
        rw [← htoteq]
        exact orbit_lt _ _ htot x
      have hoy : orbit first (pick_random_coprime (totalPorts input) cands)
          (totalPorts input) y < pSum (mergedRanges input) (mergedRanges input).length := by
        rw [← htoteq]
        exact orbit_lt _ _ htot y
      rcases Nat.lt_or_ge (orbit first (pick_random_coprime (totalPorts input) cands)
          (totalPorts input) x)
        (orbit first (pick_random_coprime (totalPorts input) cands) (totalPorts input) y)
        with h | h
      · have := portOfIndex_strictMono _ hbound hgap h hoy
        omega
      · have hlt2 : orbit first (pick_random_coprime (totalPorts input) cands)
            (totalPorts input) y <
            orbit first (pick_random_coprime (totalPorts input) cands)
              (totalPorts input) x := by omega
        have := portOfIndex_strictMono _ hbound hgap hlt2 hox
        omega
    exact orbit_inj hco hx hy horbeq
  · intro p
    rw [List.mem_map]
    constructor
    · rintro ⟨j, hj, rfl⟩
      rw [List.mem_range] at hj
      refine (hcov _).mp (portOfIndex_mem _ hbound ?_)
      rw [← htoteq]
      exact orbit_lt _ _ htot j
    · intro hp
      obtain ⟨cur, hcur, hport⟩ := portOfIndex_surj _ hbound ((hcov p).mpr hp)
      have hcur2 : cur < totalPorts input := by omega
      obtain ⟨j, hj, horb⟩ := orbit_surj hco htot hcur2
      exact ⟨j, List.mem_range.mpr hj, by rw [horb, hport]⟩

/-- Witness for `random_iterator_emits_union_once` at input `[(1, 3)]` with
candidate stream `1` and first pick `0`. -/
theorem random_iterator_emits_union_once_witness :
    (([(1, 3)] : List (ℕ × ℕ)) ≠ [] ∧
        (∀ r ∈ ([(1, 3)] : List (ℕ × ℕ)), r.1 ≤ r.2) ∧
        (∀ r ∈ ([(1, 3)] : List (ℕ × ℕ)), r.2 ≤ 65535) ∧
        0 < totalPorts [(1, 3)]) ∧
      (randomPorts [(1, 3)] (fun _ => 1) 0).Nodup ∧
        ∀ p, p ∈ randomPorts [(1, 3)] (fun _ => 1) 0 ↔ inRanges [(1, 3)] p :=
  ⟨⟨by decide, by decide, by decide, by decide⟩,
    random_iterator_emits_union_once [(1, 3)] (fun _ => 1) 0
      (by decide) (by decide) (by decide) (by decide)⟩

/-- **C10.** The randomized iterator is panic-free: with a non-empty
well-formed input, every internal normalized index lies below the total, the
binary search lands on a block index `idx < ranges.len()` with
`prefix[idx] <= cur < prefix[idx + 1]`, and the computed port lies in one of
the input ranges, hence is at most 65535 — the `u32` to `u16` conversion
panic branch is unreachable. -/
theorem random_iterator_panic_free (input : List (ℕ × ℕ)) (cands : ℕ → ℕ)
    (first i : ℕ) (hne : input ≠ []) (hle : ∀ r ∈ input, r.1 ≤ r.2)
    (hub : ∀ r ∈ input, r.2 ≤ 65535) (hf : first < totalPorts input)
    (hi : i < totalPorts input) :
    orbit first (pick_random_coprime (totalPorts input) cands) (totalPorts input) i <
        totalPorts input ∧
      bsearchGo (pfxSums (mergedRanges input))
          (orbit first (pick_random_coprime (totalPorts input) cands) (totalPorts input) i)
          0 (mergedRanges input).length < (mergedRanges input).length ∧
      (pfxSums (mergedRanges input)).getD
          (bsearchGo (pfxSums (mergedRanges input))
            (orbit first (pick_random_coprime (totalPorts input) cands) (totalPorts input) i)
            0 (mergedRanges input).length) 0 ≤
        orbit first (pick_random_coprime (totalPorts input) cands) (totalPorts input) i ∧
      orbit first (pick_random_coprime (totalPorts input) cands) (totalPorts input) i <
        (pfxSums (mergedRanges input)).getD
          (bsearchGo (pfxSums (mergedRanges input))
            (orbit first (pick_random_coprime (totalPorts input) cands) (totalPorts input) i)
            0 (mergedRanges input).length + 1) 0 ∧
      inRanges input
        (portOfIndex (mergedRanges input) (pfxSums (mergedRanges input))
          (orbit first (pick_random_coprime (totalPorts input) cands) (totalPorts input) i)) ∧
      portOfIndex (mergedRanges input) (pfxSums (mergedRanges input))
          (orbit first (pick_random_coprime (totalPorts input) cands) (totalPorts input) i) ≤
        65535 := by
  obtain ⟨hbound, htoteq, htot⟩ := random_setup input hne hle hub
  obtain ⟨hcov, hgapC, hpos, hBne⟩ := merged_facts input hne hle
  have hcur : orbit first (pick_random_coprime (totalPorts input) cands)
      (totalPorts input) i < totalPorts input := orbit_lt _ _ htot i
  have hcurP : orbit first (pick_random_coprime (totalPorts input) cands)
      (totalPorts input) i < pSum (mergedRanges input) (mergedRanges input).length := by
    omega
  obtain ⟨hrk, hrlo, hrhi⟩ := rankOf_spec (mergedRanges input) _ hcurP
  obtain ⟨hbs, _⟩ := portOfIndex_eq (mergedRanges input) hbound hcurP
  have hmem : inRanges input
      (portOfIndex (mergedRanges input) (pfxSums (mergedRanges input))
        (orbit first (pick_random_coprime (totalPorts input) cands) (totalPorts input) i)) :=
    (hcov _).mp (portOfIndex_mem _ hbound hcurP)
  refine ⟨hcur, ?_, ?_, ?_, hmem, ?_⟩
  · rw [hbs]
    exact hrk
  · rw [hbs, pfx_getD _ hbound _ (by omega)]
    exact hrlo
  · rw [hbs, pfx_getD _ hbound _ (by omega)]
    exact hrhi
  · obtain ⟨r, hr, _, h2⟩ := hmem
    have := hub r hr
    omega

/-- Witness for `random_iterator_panic_free` at input `[(1, 3)]`, candidate
stream `1`, first pick `0`, index `1`. -/
theorem random_iterator_panic_free_witness :
    (([(1, 3)] : List (ℕ × ℕ)) ≠ [] ∧
        (∀ r ∈ ([(1, 3)] : List (ℕ × ℕ)), r.1 ≤ r.2) ∧
        (∀ r ∈ ([(1, 3)] : List (ℕ × ℕ)), r.2 ≤ 65535) ∧
        0 < totalPorts [(1, 3)] ∧ 1 < totalPorts [(1, 3)]) ∧
      inRanges [(1, 3)]
        (portOfIndex (mergedRanges [(1, 3)]) (pfxSums (mergedRanges [(1, 3)]))
          (orbit 0 (pick_random_coprime (totalPorts [(1, 3)]) (fun _ => 1))
            (totalPorts [(1, 3)]) 1)) :=
  ⟨⟨by decide, by decide, by decide, by decide, by decide⟩,
    (random_iterator_panic_free [(1, 3)] (fun _ => 1) 0 1
      (by decide) (by decide) (by decide) (by decide) (by decide)).2.2.2.2.1⟩

/-! ## `Scanner::run` — exclusion filtering and socket generation -/

/-- Step 1 of `Scanner::run`:
`self.port_strategy.order().iter().filter(|&port| !self.exclude_ports.contains(port))`. -/
def runPorts (orderedPorts exclude_ports : List ℕ) : List ℕ :=
  orderedPorts.filter (fun port => !(exclude_ports.contains port))

/-- Modelled from the spec: `SocketIterator` (the file
`src/scanner/socket_iterator.rs` is not among the sources, only its use in
`Scanner::run`).  Spec §4.3: emit `(ip, port)` pairs with the port as the
outer index — all IPs are probed on one port before the next port. -/
def socketIterator {α : Type} (ips : List α) (ports : List ℕ) : List (α × ℕ) :=
  ports.flatMap (fun p => ips.map (fun ip => (ip, p)))

/-- The sockets `Scanner::run` feeds to `scan_socket`. -/
def runProbes {α : Type} (ips : List α) (orderedPorts exclude_ports : List ℕ) :
    List (α × ℕ) :=
  socketIterator ips (runPorts orderedPorts exclude_ports)

/-- The `open_sockets` accumulated by `Scanner::run`: every probed socket is
scanned once and collected when its probe returns `Ok` (outcomes abstracted
by the oracle `isOpen`; completion order is irrelevant to membership). -/
def runOpenSockets {α : Type} (ips : List α) (orderedPorts exclude_ports : List ℕ)
    (isOpen : α × ℕ → Bool) : List (α × ℕ) :=
  (runProbes ips orderedPorts exclude_ports).filter isOpen

/-- **C3.** `Scanner::run` filters the strategy's ordered port list against
`exclude_ports` before any socket is generated: the probed sockets are
exactly the IPs crossed with the emitted ports minus the excluded ones, and
no socket with an excluded port appears among the probed sockets or in the
returned open-socket list. -/
theorem run_filters_excluded_ports {α : Type} (ips : List α)
    (orderedPorts exclude_ports : List ℕ) (isOpen : α × ℕ → Bool) :
    (∀ ip p, (ip, p) ∈ runProbes ips orderedPorts exclude_ports ↔
        ip ∈ ips ∧ p ∈ orderedPorts ∧ p ∉ exclude_ports) ∧
      (∀ s ∈ runProbes ips orderedPorts exclude_ports, s.2 ∉ exclude_ports) ∧
      (∀ s ∈ runOpenSockets ips orderedPorts exclude_ports isOpen,
        s ∈ runProbes ips orderedPorts exclude_ports ∧ s.2 ∉ exclude_ports) := by
  have hmem : ∀ ip p, (ip, p) ∈ runProbes ips orderedPorts exclude_ports ↔
      ip ∈ ips ∧ p ∈ orderedPorts ∧ p ∉ exclude_ports := by
    intro ip p
    simp only [runProbes, socketIterator, runPorts, List.mem_flatMap, List.mem_map,
      List.mem_filter]
    constructor
    · rintro ⟨q, ⟨hq, hq2⟩, ip2, hip2, heq⟩
      obtain ⟨h1, h2⟩ := Prod.mk.injEq .. ▸ heq
      subst h1 h2
      refine ⟨hip2, hq, fun hmem2 => ?_⟩
      simp at hq2
      exact hq2 hmem2
    · rintro ⟨hip, hq, hnot⟩
      refine ⟨p, ⟨hq, ?_⟩, ip, hip, rfl⟩
      cases hcase : exclude_ports.contains p
      · rfl
      · exact absurd (List.elem_iff.mp hcase) hnot
  refine ⟨hmem, ?_, ?_⟩
  · rintro ⟨ip, p⟩ hs
    exact ((hmem ip p).mp hs).2.2
  · rintro ⟨ip, p⟩ hs
    have h1 : (ip, p) ∈ runProbes ips orderedPorts exclude_ports :=
      (List.mem_filter.mp hs).1
    exact ⟨h1, ((hmem ip p).mp h1).2.2⟩

/-! ## `Scanner::run` — the batched dispatch loop -/

/-- State of the dispatch loop: sockets not yet admitted and in-flight
futures (`ftrs`). -/
structure DispatchState where
  remaining : ℕ
  inflight : ℕ

/-- The initial `for _ in 0..batch_size` loop: admit one socket per
iteration, breaking when the iterator is exhausted. -/
def initDispatch (batch_size n : ℕ) : DispatchState :=
  { remaining := n - min batch_size n, inflight := min batch_size n }

/-- One turn of `while let Some(result) = ftrs.next().await`: a completed
future leaves the in-flight set, then the next socket (if any) is admitted
(`inflight - 1 + 1` when a socket remains). -/
def stepDispatch (st : DispatchState) : DispatchState :=
  if st.inflight = 0 then st
  else if st.remaining = 0 then { st with inflight := st.inflight - 1 }
  else { st with remaining := st.remaining - 1, inflight := st.inflight - 1 + 1 }

theorem stepDispatch_inflight_le (st : DispatchState) :
    (stepDispatch st).inflight ≤ st.inflight := by
  unfold stepDispatch
  split
  · exact le_refl _
  · split
    · have h2 : ({ st with inflight := st.inflight - 1 } : DispatchState).inflight =
          st.inflight - 1 := rfl
      rw [h2]
      omega
    · have h2 :
          ({ st with remaining := st.remaining - 1, inflight := st.inflight - 1 + 1 } :
            DispatchState).inflight = st.inflight - 1 + 1 := rfl
      rw [h2]
      omega

/-- **C4.** The dispatch loop admits exactly `min batch_size n` probes up
front and afterwards admits one probe only when one completes, so at every
step the number of in-flight probes is at most `batch_size`. -/
theorem inflight_bounded_by_batch_size (batch_size n k : ℕ) :
    (initDispatch batch_size n).inflight = min batch_size n ∧
      (stepDispatch^[k] (initDispatch batch_size n)).inflight ≤ batch_size := by
  refine ⟨rfl, ?_⟩
  induction k with
  | zero =>
    simp only [Function.iterate_zero_apply]
    exact min_le_left _ _
  | succ k ih =>
    rw [Function.iterate_succ_apply']
    exact le_trans (stepDispatch_inflight_le _) ih

/-! ## `Scanner::scan_socket` — TCP retry and fatal-error logic -/

/-- The literal `"too many open files"`. -/
def tooManyOpenFiles : List Char := "too many open files".toList

/-- `error_string.to_lowercase().contains("too many open files")`. -/
def containsTooMany (msg : List Char) : Bool :=
  decide (List.IsInfix tooManyOpenFiles (msg.map Char.toLower))

/-- Outcome of one `self.connect(socket).await`. -/
inductive ConnResult where
  | ok
  | err (msg : List Char)

/-- Result of `scan_socket` for a TCP probe: `Ok(socket)` (`opened`),
`Err(...)` (`closed` with the error string), the fatal `assert!` abort, or
the trailing `unreachable!()`. -/
inductive TcpOutcome where
  | opened
  | closed (msg : List Char)
  | fatal
  | panicked
deriving DecidableEq

/-- The `for nr_try in 1..=tries` loop of `scan_socket` (TCP path), with the
connect outcomes given by `attempts`.  `ip` is `socket.ip().to_string()`. -/
def scan_socket_go (ip : List Char) (attempts : ℕ → ConnResult) (tries : ℕ) :
    ℕ → TcpOutcome := fun nr =>
  if nr ≤ tries then
    match attempts nr with
    | .ok => .opened
    | .err e =>
      if containsTooMany e then .fatal
      else if nr = tries then .closed (e ++ ' ' :: ip)
      else scan_socket_go ip attempts tries (nr + 1)
  else .panicked
termination_by nr => tries + 1 - nr
decreasing_by all_goals omega

/-- `Scanner::scan_socket` on a TCP probe. -/
def scan_socket (ip : List Char) (attempts : ℕ → ConnResult) (tries : ℕ) : TcpOutcome :=
  scan_socket_go ip attempts tries 1

theorem scan_socket_go_closed (ip : List Char) (attempts : ℕ → ConnResult) (tries : ℕ)
    (hall : ∀ k, 1 ≤ k → k ≤ tries → ∃ e, attempts k = .err e ∧ containsTooMany e = false) :
    ∀ m nr, 1 ≤ nr → nr + m = tries → ∀ lastE, attempts tries = .err lastE →
      scan_socket_go ip attempts tries nr = .closed (lastE ++ ' ' :: ip) := by
  intro m
  induction m with
  | zero =>
    intro nr h1 h2 lastE hlast
    rw [scan_socket_go]
    have heq : nr = tries := by omega
    subst heq
    rw [hlast]
    obtain ⟨e2, he2, htm⟩ := hall nr h1 (le_refl _)
    rw [he2] at hlast
    cases hlast
    simp [le_refl, htm]
  | succ m ih =>
    intro nr h1 h2 lastE hlast
    rw [scan_socket_go]
    obtain ⟨e2, he2, htm⟩ := hall nr h1 (by omega)
    rw [he2]
    have hle : nr ≤ tries := by omega
    have hne : ¬ nr = tries := by omega
    simp only [hle, if_true, htm, Bool.false_eq_true, if_false, hne]
    exact ih (nr + 1) (by omega) (by omega) lastE hlast

theorem scan_socket_go_fatal (ip : List Char) (attempts : ℕ → ConnResult) (tries k : ℕ)
    (hk1 : 1 ≤ k) (hk2 : k ≤ tries)
    (hbefore : ∀ j, 1 ≤ j → j < k → ∃ e, attempts j = .err e ∧ containsTooMany e = false)
    {e : List Char} (hke : attempts k = .err e) (htm : containsTooMany e = true) :
    ∀ m nr, 1 ≤ nr → nr ≤ k → k - nr ≤ m →
      scan_socket_go ip attempts tries nr = .fatal := by
  intro m
  induction m with
  | zero =>
    intro nr h1 h2 h3
    have heq : nr = k := by omega
    subst heq
    rw [scan_socket_go, hke]
    simp [show nr ≤ tries by omega, htm]
  | succ m ih =>
    intro nr h1 h2 h3
    rcases Nat.lt_or_ge nr k with hlt | hge
    · obtain ⟨e2, he2, htm2⟩ := hbefore nr h1 hlt
      rw [scan_socket_go, he2]
      have hne : ¬ nr = tries := by omega
      simp only [show nr ≤ tries by omega, if_true, htm2, Bool.false_eq_true, if_false, hne]
      exact ih (nr + 1) (by omega) (by omega) (by omega)
    · have heq : nr = k := by omega
      subst heq
      rw [scan_socket_go, hke]
      simp [show nr ≤ tries by omega, htm]

/-- **C5.** For a TCP probe: a connect failure whose message
case-insensitively contains "too many open files" aborts the scan fatally;
any other failure is retried up to `tries` total attempts, and after the
final failed attempt `scan_socket` returns `Err` whose string is the last
failure message with the target IP appended (a space in between), so the
socket is reported `Closed`. -/
theorem scan_socket_spec (ip : List Char) (attempts : ℕ → ConnResult) (tries : ℕ)
    (htries : 1 ≤ tries) :
    ((∀ k, 1 ≤ k → k ≤ tries → ∃ e, attempts k = .err e ∧ containsTooMany e = false) →
        ∀ lastE, attempts tries = .err lastE →
          scan_socket ip attempts tries = .closed (lastE ++ ' ' :: ip)) ∧
      (∀ k, 1 ≤ k → k ≤ tries →
        (∀ j, 1 ≤ j → j < k → ∃ e, attempts j = .err e ∧ containsTooMany e = false) →
        ∀ e, attempts k = .err e → containsTooMany e = true →
          scan_socket ip attempts tries = .fatal) := by
  constructor
  · intro hall lastE hlast
    exact scan_socket_go_closed ip attempts tries hall
      (tries - 1) 1 (le_refl _) (by omega) lastE hlast
  · intro k hk1 hk2 hbefore e hke htm
    exact scan_socket_go_fatal ip attempts tries k hk1 hk2 hbefore hke htm
      (k - 1) 1 (le_refl _) hk1 (by omega)

/-- Witness for `scan_socket_spec`: `tries = 2`, every attempt failing with
"connection refused" (target IP `10.0.0.1`), and separately every attempt
failing with "Too Many Open Files" — evaluating both outcomes. -/
theorem scan_socket_spec_witness :
    (1 ≤ 2 ∧
        scan_socket "10.0.0.1".toList (fun _ => .err "connection refused".toList) 2 =
          .closed ("connection refused".toList ++ ' ' :: "10.0.0.1".toList)) ∧
      scan_socket "10.0.0.1".toList (fun _ => .err "Too Many Open Files".toList) 2 =
        .fatal :=
  ⟨⟨by decide,
      (scan_socket_spec "10.0.0.1".toList (fun _ => .err "connection refused".toList) 2
            (by decide)).1
        (fun k _ _ => ⟨"connection refused".toList, rfl, by decide⟩)
        "connection refused".toList rfl⟩,
    (scan_socket_spec "10.0.0.1".toList (fun _ => .err "Too Many Open Files".toList) 2
          (by decide)).2
      1 (by decide) (by decide) (fun j h1 h2 => absurd h1 (by omega))
      "Too Many Open Files".toList rfl (by decide)⟩

/-! ## `Scanner::scan_udp_socket` / `udp_scan` — UDP retry logic -/

/-- Outcome of one `self.udp_scan(socket, &payload, self.timeout).await`:
`Ok(true)` — a datagram was received; `Ok(false)` — the `recv` timed out;
`Err(e)` — a non-timeout I/O error during bind, connect, send, or recv. -/
inductive UdpAttempt where
  | received
  | timedOut
  | ioError (msg : List Char)

/-- Result of `scan_udp_socket`: `Ok(socket)` or `Err(...)`. -/
inductive UdpOutcome where
  | opened
  | err (msg : List Char)
deriving DecidableEq

/-- `"UDP scan timed-out for all tries on socket {socket}"`. -/
def udpTimeoutMsg (socket : List Char) : List Char :=
  "UDP scan timed-out for all tries on socket ".toList ++ socket

/-- The `for _ in 1..=tries` loop of `scan_udp_socket`, with the per-attempt
outcomes given by `attempts`; falling out of the loop yields the timeout
error. -/
def scan_udp_socket_go (attempts : ℕ → UdpAttempt) (tries : ℕ) (socket : List Char) :
    ℕ → UdpOutcome := fun nr =>
  if nr ≤ tries then
    match attempts nr with
    | .received => .opened
    | .timedOut => scan_udp_socket_go attempts tries socket (nr + 1)
    | .ioError e => .err e
  else .err (udpTimeoutMsg socket)
termination_by nr => tries + 1 - nr
decreasing_by all_goals omega

/-- `Scanner::scan_udp_socket`. -/
def scan_udp_socket (attempts : ℕ → UdpAttempt) (tries : ℕ) (socket : List Char) :
    UdpOutcome :=
  scan_udp_socket_go attempts tries socket 1

theorem scan_udp_socket_go_spec (attempts : ℕ → UdpAttempt) (tries : ℕ)
    (socket : List Char) :
    ∀ m nr, 1 ≤ nr → tries + 1 - nr ≤ m →
      ((∀ j, nr ≤ j → j ≤ tries → attempts j = .timedOut) →
          scan_udp_socket_go attempts tries socket nr = .err (udpTimeoutMsg socket)) ∧
        (∀ k, nr ≤ k → k ≤ tries → (∀ j, nr ≤ j → j < k → attempts j = .timedOut) →
          (attempts k = .received → scan_udp_socket_go attempts tries socket nr = .opened) ∧
            ∀ e, attempts k = .ioError e →
              scan_udp_socket_go attempts tries socket nr = .err e) := by
  intro m
  induction m with
  | zero =>
    intro nr h1 h2
    constructor
    · intro _
      rw [scan_udp_socket_go]
      simp [show ¬ nr ≤ tries by omega]
    · intro k hk1 hk2 _
      omega
  | succ m ih =>
    intro nr h1 h2
    by_cases hle : nr ≤ tries
    · constructor
      · intro hall
        rw [scan_udp_socket_go]
        simp only [hle, if_true]
        rw [hall nr (le_refl _) hle]
        exact (ih (nr + 1) (by omega) (by omega)).1 (fun j hj1 hj2 => hall j (by omega) hj2)
      · intro k hk1 hk2 hbefore
        rcases Nat.lt_or_ge nr k with hlt | hge
        · have hnrt : attempts nr = .timedOut := hbefore nr (le_refl _) hlt
          have hrec := (ih (nr + 1) (by omega) (by omega)).2 k (by omega) hk2
            (fun j hj1 hj2 => hbefore j (by omega) hj2)
          constructor
          · intro hk
            rw [scan_udp_socket_go]
            simp only [hle, if_true]
            rw [hnrt]
            exact hrec.1 hk
          · intro e hk
            rw [scan_udp_socket_go]
            simp only [hle, if_true]
            rw [hnrt]
            exact hrec.2 e hk
        · have heq : nr = k := by omega
          subst heq
          constructor
          · intro hk
            rw [scan_udp_socket_go]
            simp [hle, hk]
          · intro e hk
            rw [scan_udp_socket_go]
            simp [hle, hk]
    · constructor
      · intro _
        rw [scan_udp_socket_go]
        simp [hle]
      · intro k hk1 hk2 _
        omega

/-- **C6.** For a UDP probe: a received datagram makes `scan_udp_socket`
return the socket as open; a timed-out attempt is retried, and if all
`tries` attempts time out the probe returns the timeout error (so the
socket contributes nothing to the open list); a non-timeout I/O error at
any attempt is returned immediately with no further retries. -/
theorem scan_udp_socket_spec (attempts : ℕ → UdpAttempt) (tries : ℕ)
    (socket : List Char) (htries : 1 ≤ tries) :
    ((∀ j, 1 ≤ j → j ≤ tries → attempts j = .timedOut) →
        scan_udp_socket attempts tries socket = .err (udpTimeoutMsg socket)) ∧
      ∀ k, 1 ≤ k → k ≤ tries → (∀ j, 1 ≤ j → j < k → attempts j = .timedOut) →
        (attempts k = .received → scan_udp_socket attempts tries socket = .opened) ∧
          ∀ e, attempts k = .ioError e →
            scan_udp_socket attempts tries socket = .err e := by
  have h := scan_udp_socket_go_spec attempts tries socket tries 1 (le_refl _) (by omega)
  exact ⟨h.1, fun k hk1 hk2 hb => h.2 k hk1 hk2 hb⟩

/-- Witness for `scan_udp_socket_spec`: `tries = 3`, the second attempt
receives a datagram — evaluating the outcome; and all-timeouts yields the
timeout error. -/
theorem scan_udp_socket_spec_witness :
    (1 ≤ 3 ∧
        scan_udp_socket (fun k => if k = 2 then .received else .timedOut) 3
          "127.0.0.1:53".toList = .opened) ∧
      scan_udp_socket (fun _ => .timedOut) 3 "127.0.0.1:53".toList =
        .err (udpTimeoutMsg "127.0.0.1:53".toList) :=
  ⟨⟨by decide,
      ((scan_udp_socket_spec (fun k => if k = 2 then .received else .timedOut) 3
              "127.0.0.1:53".toList (by decide)).2
          2 (by decide) (by decide)
          (fun j h1 h2 => by
            have hj : j = 1 := by omega
            subst hj
            rfl)).1
        rfl⟩,
    (scan_udp_socket_spec (fun _ => .timedOut) 3 "127.0.0.1:53".toList (by decide)).1
      (fun j _ _ => rfl)⟩

/-! ## `get_resolver` — backup DNS resolver selection -/

/-- The resolver configuration `get_resolver` ends up with: one built from
explicit nameserver IPs, the system configuration, or the Cloudflare TLS
default. -/
inductive ResolverChoice (ip : Type) where
  | nameservers (ips : List ip)
  | system
  | cloudflare
deriving DecidableEq

/-- `get_resolver` from `address.rs`: when `--resolver` is given, first try
to read it as a file of IPs (`read_resolver_from_file`), on failure parse it
as a comma-separated list, and build the config from those IPs; when it is
absent, use the system configuration
(`TokioAsyncResolver::tokio_from_system_conf`) and fall back to Cloudflare
TLS.  `readFile` is the file-read oracle (`none` = I/O error), `parseIp`
models `IpAddr::from_str` on a trimmed line or list item, `systemConf`
tells whether the system DNS configuration is readable. -/
def get_resolver {ip : Type} (readFile : String → Option (List ip))
    (parseIp : String → Option ip) (systemConf : Bool) (resolver : Option String) :
    ResolverChoice ip :=
  match resolver with
  | some r =>
    .nameservers
      (match readFile r with
        | some ips => ips
        | none => (r.splitOn ",").filterMap parseIp)
  | none => if systemConf then .system else .cloudflare

/-- Modelled from the spec (§3, the claim's wording): precedence (a) system
DNS configuration, (b) comma-separated list, (c) resolver file,
(d) Cloudflare; the first that succeeds wins. -/
def claimResolver {ip : Type} (readFile : String → Option (List ip))
    (parseIp : String → Option ip) (systemConf : Bool) (resolver : Option String) :
    ResolverChoice ip :=
  if systemConf then .system
  else
    match resolver with
    | some r =>
      if ((r.splitOn ",").filterMap parseIp).isEmpty = false then
        .nameservers ((r.splitOn ",").filterMap parseIp)
      else
        match readFile r with
        | some ips => .nameservers ips
        | none => .cloudflare
    | none => .cloudflare

/-- **C7 (counterexample).** With a readable system DNS configuration and a
user-supplied resolver argument naming a readable file of one IP, the code
uses the user-supplied file while the claim's precedence picks the system
configuration: the claimed order (system first) does not match
`get_resolver`. -/
theorem get_resolver_claim_counterexample :
    @get_resolver ℕ (fun _ => some [8]) (fun _ => none) true (some "res.txt") =
        .nameservers [8] ∧
      @claimResolver ℕ (fun _ => some [8]) (fun _ => none) true (some "res.txt") =
        .system ∧
      @get_resolver ℕ (fun _ => some [8]) (fun _ => none) true (some "res.txt") ≠
        @claimResolver ℕ (fun _ => some [8]) (fun _ => none) true (some "res.txt") := by
  refine ⟨rfl, rfl, ?_⟩
  intro h
  simp [get_resolver, claimResolver] at h

/-- **C7 (amended).** The backup resolver precedence implemented by
`get_resolver`: when `--resolver` is supplied, a readable file of resolver
IPs wins, otherwise the argument is parsed as a comma-separated list (in
that order, ignoring the system configuration); when `--resolver` is
absent, the system DNS configuration is used when readable, else the
Cloudflare TLS default. -/
theorem get_resolver_precedence {ip : Type} (readFile : String → Option (List ip))
    (parseIp : String → Option ip) (systemConf : Bool) :
    (∀ r ips, readFile r = some ips →
        get_resolver readFile parseIp systemConf (some r) = .nameservers ips) ∧
      (∀ r, readFile r = none →
        get_resolver readFile parseIp systemConf (some r) =
          .nameservers ((r.splitOn ",").filterMap parseIp)) ∧
      (systemConf = true → get_resolver readFile parseIp systemConf none = .system) ∧
      (systemConf = false →
        get_resolver readFile parseIp systemConf none = .cloudflare) := by
  refine ⟨?_, ?_, ?_, ?_⟩
  · intro r ips h
    simp [get_resolver, h]
  · intro r h
    simp [get_resolver, h]
  · intro h
    simp [get_resolver, h]
  · intro h
    simp [get_resolver, h]

/-! ## `parse_addresses` / `read_ips_from_file` — address-token resolution -/

/-- The resolution environment of `address.rs`: CIDR parsing, the two DNS
lookups, and file opening (each `none` = failure). -/
structure AddrEnv (ip : Type) where
  parseCidr : String → Option (List ip)
  lookupHost : String → Option (List ip)
  backupLookup : String → Option (List ip)
  openFile : String → Option (List String)

/-- `resolve_ips_from_host`: system `lookup_host` first, then the backup
resolver, else nothing. -/
def resolve_ips_from_host {ip : Type} (env : AddrEnv ip) (s : String) : List ip :=
  match env.lookupHost s with
  | some l => l
  | none =>
    match env.backupLookup s with
    | some l => l
    | none => []

/-- `parse_address`: CIDR expansion, else host resolution. -/
def parse_address {ip : Type} (env : AddrEnv ip) (s : String) : List ip :=
  match env.parseCidr s with
  | some l => l
  | none => resolve_ips_from_host env s

/-- `read_ips_from_file`: resolve every line through
`resolve_ips_from_host` and concatenate (no warning is emitted here). -/
def read_ips_from_file {ip : Type} (env : AddrEnv ip) (lines : List String) : List ip :=
  lines.flatMap (resolve_ips_from_host env)

/-- `parse_addresses`: per token, the parsed addresses; when empty, try the
token as a file and stream its lines through `read_ips_from_file`; when the
file cannot be opened, emit one warning and drop the token.  Returns the
collected IPs and the number of warnings (ordering across tokens is
irrelevant to the counts). -/
def parse_addresses {ip : Type} (env : AddrEnv ip) (tokens : List String) :
    List ip × ℕ :=
  tokens.foldr
    (fun t acc =>
      let a := parse_address env t
      if a.isEmpty then
        match env.openFile t with
        | some lines => (read_ips_from_file env lines ++ acc.1, acc.2)
        | none => (acc.1, acc.2 + 1)
      else (a ++ acc.1, acc.2))
    ([], 0)

/-- The S8 environment: a file `hosts.txt` of 3 resolvable lines (one IP
each) and 2 unresolvable lines. -/
def s8Env : AddrEnv ℕ :=
  { parseCidr := fun _ => none
    lookupHost := fun s =>
      if s = "a.example" then some [1]
      else if s = "b.example" then some [2]
      else if s = "c.example" then some [3]
      else none
    backupLookup := fun _ => none
    openFile := fun t =>
      if t = "hosts.txt" then some ["a.example", "b.example", "bad1", "c.example", "bad2"]
      else none }

/-- **C8 (counterexample).** A file of 3 resolvable and 2 unresolvable
entries yields 3 IPs and **zero** warnings — not the 2 warnings the claim
demands: lines of an address file that resolve to nothing are dropped with
no warning. -/
theorem parse_addresses_file_warnings_counterexample :
    (parse_addresses s8Env ["hosts.txt"]).1 = [1, 2, 3] ∧
      (parse_addresses s8Env ["hosts.txt"]).2 = 0 ∧
      ¬ (parse_addresses s8Env ["hosts.txt"]).2 = 2 := by
  refine ⟨by decide, by decide, by decide⟩

/-- **C8 (amended).** When an address token resolves to nothing but opens as
a file, the result is exactly the concatenation of the per-line resolutions
of the file with **zero** warnings: every line that resolves to nothing is
dropped silently (it contributes nothing and no warning), and a warning is
emitted only for a token that neither resolves nor opens as a file. -/
theorem parse_addresses_file_token (ip : Type) (env : AddrEnv ip) (t : String)
    (lines : List String) (hres : parse_address env t = [])
    (hfile : env.openFile t = some lines) :
    parse_addresses env [t] = (read_ips_from_file env lines, 0) ∧
      ∀ x ∈ read_ips_from_file env lines,
        x ∈ (lines.filter (fun l2 => !(resolve_ips_from_host env l2).isEmpty)).flatMap
          (resolve_ips_from_host env) := by
  constructor
  · unfold parse_addresses
    simp [hres, hfile]
  · intro x hx
    rw [read_ips_from_file, List.mem_flatMap] at hx
    obtain ⟨l2, hl2, hxl2⟩ := hx
    rw [List.mem_flatMap]
    refine ⟨l2, List.mem_filter.mpr ⟨hl2, ?_⟩, hxl2⟩
    have hne2 : (resolve_ips_from_host env l2).isEmpty = false := by
      cases hcase : (resolve_ips_from_host env l2).isEmpty
      · rfl
      · rw [List.isEmpty_iff] at hcase
        rw [hcase] at hxl2
        exact absurd hxl2 (List.not_mem_nil x)
    simp [hne2]

/-- Witness for `parse_addresses_file_token` at the S8 environment:
3 resolvable and 2 unresolvable lines give exactly the 3 IPs and 0
warnings. -/
theorem parse_addresses_file_token_witness :
    (parse_address s8Env "hosts.txt" = [] ∧
        s8Env.openFile "hosts.txt" =
          some ["a.example", "b.example", "bad1", "c.example", "bad2"]) ∧
      parse_addresses s8Env ["hosts.txt"] =
        (read_ips_from_file s8Env
          ["a.example", "b.example", "bad1", "c.example", "bad2"], 0) :=
  ⟨⟨by decide, by decide⟩,
    (parse_addresses_file_token ℕ s8Env "hosts.txt"
        ["a.example", "b.example", "bad1", "c.example", "bad2"] (by decide) (by decide)).1⟩

end RustScan
